import Mathlib

/-!
Verification of the bin splitter script (Split_bins2fasta.py).

The script loads a bin → contig mapping from a TSV file, inverts it into a
contig → bins index, streams an assembly FASTA file record by record and
writes each record to the output file of every bin that claims its id.

The embedding works on the script's observable data: files are lists of raw
lines (each line carrying its own terminator, as Python's file iteration
yields them), and the set of output files is an association list from bin
name to accumulated file content.  The unguarded list indexing on a header
line with no token (line[1:].strip().split()[0]) is modelled by Option:
a run that raises the IndexError returns none.
-/

/-- ASCII whitespace as recognised by Python's str.strip / str.split. -/
def isPySpace (c : Char) : Bool :=
  c = ' ' || c = '\t' || c = '\n' || c = '\r' || c = '\x0b' || c = '\x0c'

/-- Python's str.strip(): drop leading and trailing whitespace. -/
def pyStrip (s : String) : String :=
  String.mk (((s.data.dropWhile isPySpace).reverse.dropWhile isPySpace).reverse)

/-- Helper for pySplit: scan characters, accumulating the current token. -/
def splitAux : List Char → List Char → List String
  | [], acc => if acc.isEmpty then [] else [String.mk acc.reverse]
  | c :: cs, acc =>
    if isPySpace c then
      if acc.isEmpty then splitAux cs [] else String.mk acc.reverse :: splitAux cs []
    else splitAux cs (c :: acc)

/-- Python's str.split() with no argument: split on runs of whitespace,
no empty fields. -/
def pySplit (s : String) : List String := splitAux s.data []

/-- Python's line.startswith of the record marker character. -/
def isMarker (s : String) : Bool :=
  match s.data with
  | [] => false
  | c :: _ => c = '>'

/-- Python's line[1:]. -/
def dropMarker (s : String) : String := String.mk (s.data.drop 1)

/-- Python's "".join. -/
def concatAll : List String → String
  | [] => ""
  | s :: rest => s ++ concatAll rest

/-- Association-list lookup keyed by string equality (models dict lookup). -/
def lookupStr {α : Type} (k : String) : List (String × α) → Option α
  | [] => none
  | (k', v) :: rest => if k' = k then some v else lookupStr k rest

/-- Boolean membership in a list of strings (models set / list membership). -/
def hasStr (l : List String) (x : String) : Bool :=
  match l with
  | [] => false
  | y :: ys => if y = x then true else hasStr ys x

/-- bin2contigs: bin name → contigs, in insertion order of bins; the contig
collection per bin is a Python set, modelled as a duplicate-free list. -/
abbrev BinMap := List (String × List String)

/-- bin2contigs[bin_name].add(contig): insert into the defaultdict of sets. -/
def addContig (m : BinMap) (b c : String) : BinMap :=
  match m with
  | [] => [(b, [c])]
  | (b', cs) :: rest =>
    if b' = b then (b', if hasStr cs c then cs else cs ++ [c]) :: rest
    else (b', cs) :: addContig rest b c

/-- Loop body of load_bin_contig_map: skip blank lines, split on whitespace,
skip lines with fewer than two fields, record (first field, second field). -/
def loadRow (m : BinMap) (line : String) : BinMap :=
  if pyStrip line = "" then m
  else
    match pySplit (pyStrip line) with
    | b :: c :: _ => addContig m b c
    | _ => m

/-- load_bin_contig_map: the first line is consumed as a header
(next(f, None)); every following line goes through loadRow. -/
def load_bin_contig_map : List String → BinMap
  | [] => []
  | _ :: rest => rest.foldl loadRow []

/-- contig_to_bins: contig → list of owning bins, in append order. -/
abbrev ContigIndex := List (String × List String)

/-- contig_to_bins[c].append(bin_name) on the defaultdict of lists. -/
def addBinFor (idx : ContigIndex) (c b : String) : ContigIndex :=
  match idx with
  | [] => [(c, [b])]
  | (c', bs) :: rest =>
    if c' = c then (c', bs ++ [b]) :: rest
    else (c', bs) :: addBinFor rest c b

/-- The inversion loop of split_fasta_by_bin: for each bin and each of its
contigs, append the bin to the contig's bin list. -/
def invertMap (m : BinMap) : ContigIndex :=
  m.foldl (fun idx p => p.2.foldl (fun idx' c => addBinFor idx' c p.1) idx) []

/-- The bins owning a contig (empty when the contig is not in the index). -/
def binsOf (idx : ContigIndex) (c : String) : List String :=
  (lookupStr c idx).getD []

/-- The writer registry: bin name → content written so far.  Opening a file
lazily in mode w corresponds to inserting a key with empty prior content. -/
abbrev Writers := List (String × String)

/-- writers[bin].write(s), opening the bin's file first when absent. -/
def writeTo (ws : Writers) (b s : String) : Writers :=
  match ws with
  | [] => [(b, s)]
  | (b', t) :: rest =>
    if b' = b then (b', t ++ s) :: rest
    else (b', t) :: writeTo rest b s

/-- The record marker line written on flush: marker, id, newline. -/
def renderHeader (id : String) : String := ">" ++ id ++ "\n"

/-- The body of flush once a current contig exists: if the contig is in the
index, for each owning bin write the reconstructed header then the
accumulated body. -/
def applyRecord (idx : ContigIndex) (ws : Writers) (r : String × String) : Writers :=
  match lookupStr r.1 idx with
  | none => ws
  | some bins =>
    bins.foldl (fun ws' b => writeTo (writeTo ws' b (renderHeader r.1)) b r.2) ws

/-- The streaming state of split_fasta_by_bin: open writers, current contig
id, buffered body lines of the current record. -/
structure SplitState where
  writers : Writers
  current : Option String
  buffer : List String
deriving DecidableEq

/-- flush(): a no-op before the first record, otherwise write the current
record to every owning bin. -/
def flushState (idx : ContigIndex) (st : SplitState) : Writers :=
  match st.current with
  | none => st.writers
  | some id => applyRecord idx st.writers (id, concatAll st.buffer)

/-- line[1:].strip().split()[0]; none models the IndexError on an empty
token list. -/
def headerToken (line : String) : Option String :=
  (pySplit (pyStrip (dropMarker line))).head?

/-- One iteration of the streaming loop: a marker line flushes the previous
record and starts a new one; any other line is buffered verbatim. -/
def stepLine (idx : ContigIndex) (st : SplitState) (line : String) :
    Option SplitState :=
  if isMarker line then
    let ws := flushState idx st
    match headerToken line with
    | none => none
    | some id => some ⟨ws, some id, []⟩
  else some { st with buffer := st.buffer ++ [line] }

/-- The streaming loop over the assembly's lines. -/
def runLines (idx : ContigIndex) (st : SplitState) : List String → Option SplitState
  | [] => some st
  | l :: ls =>
    match stepLine idx st l with
    | none => none
    | some st' => runLines idx st' ls

/-- split_fasta_by_bin: invert the mapping, stream the assembly lines from
the empty state, and perform the final flush.  The result maps each bin
that was written to the full content of its output file; none models an
uncaught exception during streaming. -/
def split_fasta_by_bin (m : BinMap) (lines : List String) : Option Writers :=
  let idx := invertMap m
  (runLines idx ⟨[], none, []⟩ lines).map (flushState idx)

/-- Specification-side record parser state: the records flushed so far,
the current id and the buffered body lines. -/
structure ParseState where
  recs : List (String × String)
  current : Option String
  buffer : List String
deriving DecidableEq

/-- Flush of the parser: append the current record, if any. -/
def pflush (ps : ParseState) : List (String × String) :=
  match ps.current with
  | none => ps.recs
  | some id => ps.recs ++ [(id, concatAll ps.buffer)]

/-- One parser step, aligned line by line with stepLine. -/
def pstep (ps : ParseState) (line : String) : Option ParseState :=
  if isMarker line then
    match headerToken line with
    | none => none
    | some id => some ⟨pflush ps, some id, []⟩
  else some { ps with buffer := ps.buffer ++ [line] }

/-- The parser loop over the assembly's lines. -/
def prun (ps : ParseState) : List String → Option ParseState
  | [] => some ps
  | l :: ls =>
    match pstep ps l with
    | none => none
    | some ps' => prun ps' ls

/-- The list of (id, body) records of an assembly file, in file order;
none models the same IndexError as the splitter. -/
def records (lines : List String) : Option (List (String × String)) :=
  (prun ⟨[], none, []⟩ lines).map pflush

/-- Replaying a list of records through flush, starting from no writers. -/
def outputs (idx : ContigIndex) (rs : List (String × String)) : Writers :=
  rs.foldl (applyRecord idx) []

/-- Does bin b own record r?  Ownership depends only on the record's id. -/
def owns (idx : ContigIndex) (b : String) (r : String × String) : Bool :=
  hasStr (binsOf idx r.1) b

/-- The full text a record contributes to a bin file: reconstructed header
line followed by the body, byte for byte. -/
def renderRec (r : String × String) : String := renderHeader r.1 ++ r.2

/-- The records that end up in bin b's file, in file order. -/
def binRecords (idx : ContigIndex) (b : String) (rs : List (String × String)) :
    List (String × String) :=
  rs.filter (owns idx b)

/-- The expected content of bin b's file. -/
def binContent (idx : ContigIndex) (b : String) (rs : List (String × String)) :
    String :=
  concatAll ((binRecords idx b rs).map renderRec)

/-- Outcome of a whole run of the script's main. -/
inductive RunOutcome
  | earlyExit (msg : String)
  | completed (files : Writers)
  | crashed
deriving DecidableEq

/-- main: check the assembly path, then the map path, load the mapping and
fail when it is empty, otherwise split.  earlyExit models sys.exit with a
message before any sequence processing; crashed models an uncaught
exception while streaming. -/
def main_run (assemblyExists mapExists : Bool) (mapLines fastaLines : List String) :
    RunOutcome :=
  if assemblyExists = false then .earlyExit "ERROR: Assembly not found"
  else if mapExists = false then .earlyExit "ERROR: Mapping file not found"
  else
    let m := load_bin_contig_map mapLines
    if m = [] then .earlyExit "ERROR: No bin–contig mappings found"
    else
      match split_fasta_by_bin m fastaLines with
      | some out => .completed out
      | none => .crashed

/-- The state of the output directory: file name stem → content.  Writing a
run's output files into it opens each file in mode w, truncating whatever
was there. -/
def setFile (dir : Writers) (b content : String) : Writers :=
  match dir with
  | [] => [(b, content)]
  | (b', t) :: rest =>
    if b' = b then (b', content) :: rest
    else (b', t) :: setFile rest b content

/-- Materialise a run's output files into a pre-existing directory state. -/
def applyRun (dir : Writers) (out : Writers) : Writers :=
  out.foldl (fun d p => setFile d p.1 p.2) dir

/-- Boolean record-id test, used to count the records carrying a given id. -/
def idIs (i : String) (r : String × String) : Bool :=
  if r.1 = i then true else false

/-- Well-formedness of the loaded mapping: bin names are pairwise distinct
(dict keys) and each bin's contig collection is duplicate-free (a set). -/
def MapWF (m : BinMap) : Prop :=
  (m.map Prod.fst).Nodup ∧ ∀ p ∈ m, p.2.Nodup

/-- First-defined choice between two optional values. -/
def firstSome {α : Type} (a b : Option α) : Option α :=
  match a with
  | some v => some v
  | none => b

/-! ### Association-list lemmas -/

theorem hasStr_iff (l : List String) (x : String) : hasStr l x = true ↔ x ∈ l := by
  induction l with
  | nil => simp [hasStr]
  | cons y ys ih =>
    by_cases h : y = x
    · simp [hasStr, h]
    · simp only [hasStr, if_neg h, ih, List.mem_cons]
      constructor
      · exact Or.inr
      · rintro (h' | h')
        · exact absurd h'.symm h
        · exact h'

theorem hasStr_eq_false_iff (l : List String) (x : String) :
    hasStr l x = false ↔ x ∉ l := by
  rw [← hasStr_iff l x]
  cases hasStr l x <;> simp

theorem lookupStr_mem {α : Type} {m : List (String × α)} {k : String} {v : α}
    (h : lookupStr k m = some v) : (k, v) ∈ m := by
  induction m with
  | nil => simp [lookupStr] at h
  | cons p rest ih =>
    obtain ⟨k', v'⟩ := p
    by_cases hk : k' = k
    · subst hk
      simp [lookupStr] at h
      simp [h]
    · simp [lookupStr, hk] at h
      exact List.mem_cons_of_mem _ (ih h)

theorem lookupStr_writeTo (ws : Writers) (b x s : String) :
    lookupStr x (writeTo ws b s) =
      if b = x then some ((lookupStr x ws).getD "" ++ s) else lookupStr x ws := by
  induction ws with
  | nil =>
    by_cases h : b = x <;> simp [writeTo, lookupStr, h]
  | cons p rest ih =>
    obtain ⟨b', t⟩ := p
    by_cases h1 : b' = b
    · subst h1
      by_cases h2 : b' = x <;> simp [writeTo, lookupStr, h2]
    · by_cases h2 : b' = x
      · have hbx : b ≠ x := fun hh => h1 (h2.trans hh.symm)
        have hxb : x ≠ b := fun hh => hbx hh.symm
        simp [writeTo, h1, lookupStr, h2, hbx, hxb]
      · simp [writeTo, h1, lookupStr, h2, ih]

/-- Writing to bins other than x never touches x's file. -/
theorem lookupStr_foldWrites_not_mem (h s : String) :
    ∀ (bs : List String) (x : String), x ∉ bs → ∀ ws : Writers,
      lookupStr x (bs.foldl (fun ws' b => writeTo (writeTo ws' b h) b s) ws) =
        lookupStr x ws := by
  intro bs
  induction bs with
  | nil => intro x _ ws; rfl
  | cons b bs ih =>
    intro x hx ws
    have hbx : b ≠ x := fun hbx => hx (hbx ▸ List.mem_cons_self b bs)
    have hx' : x ∉ bs := fun hx' => hx (List.mem_cons_of_mem _ hx')
    simp only [List.foldl_cons]
    rw [ih x hx', lookupStr_writeTo, lookupStr_writeTo]
    simp [hbx]

/-- Writing to a duplicate-free list of bins containing x appends the header
and body once to x's file. -/
theorem lookupStr_foldWrites_mem (h s : String) :
    ∀ (bs : List String) (x : String), bs.Nodup → x ∈ bs → ∀ ws : Writers,
      lookupStr x (bs.foldl (fun ws' b => writeTo (writeTo ws' b h) b s) ws) =
        some ((lookupStr x ws).getD "" ++ (h ++ s)) := by
  intro bs
  induction bs with
  | nil => intro x _ hx; exact absurd hx (List.not_mem_nil x)
  | cons b bs ih =>
    intro x hnd hx ws
    rcases List.mem_cons.mp hx with hbx | hx'
    · subst hbx
      have hnotin : x ∉ bs := (List.nodup_cons.mp hnd).1
      simp only [List.foldl_cons]
      rw [lookupStr_foldWrites_not_mem h s bs x hnotin]
      rw [lookupStr_writeTo, lookupStr_writeTo]
      simp [String.append_assoc]
    · have hnd' : bs.Nodup := (List.nodup_cons.mp hnd).2
      simp only [List.foldl_cons]
      rw [ih x hnd' hx']
      by_cases hbx : b = x
      · subst hbx
        exact absurd hx' (List.nodup_cons.mp hnd).1
      · rw [lookupStr_writeTo, lookupStr_writeTo]
        simp [hbx]

/-- Lookup after one flush: a bin owning the record gains its header and
body, every other bin's file is unchanged. -/
theorem lookupStr_applyRecord (idx : ContigIndex) (ws : Writers)
    (r : String × String) (x : String) (hnd : (binsOf idx r.1).Nodup) :
    lookupStr x (applyRecord idx ws r) =
      if owns idx x r then some ((lookupStr x ws).getD "" ++ renderRec r)
      else lookupStr x ws := by
  unfold applyRecord owns
  cases hidx : lookupStr r.1 idx with
  | none =>
    simp [binsOf, hidx, hasStr]
  | some bins =>
    have hb : binsOf idx r.1 = bins := by simp [binsOf, hidx]
    rw [hb] at hnd
    by_cases hx : x ∈ bins
    · rw [lookupStr_foldWrites_mem (renderHeader r.1) r.2 bins x hnd hx ws]
      have : hasStr (binsOf idx r.1) x = true := by
        rw [hb]; exact (hasStr_iff bins x).mpr hx
      simp [this, renderRec]
    · rw [lookupStr_foldWrites_not_mem (renderHeader r.1) r.2 bins x hx ws]
      have : hasStr (binsOf idx r.1) x = false := by
        rw [hb]; exact (hasStr_eq_false_iff bins x).mpr hx
      simp [this]

/-! ### Characterising the replayed outputs -/

theorem binRecords_cons (idx : ContigIndex) (b : String) (r : String × String)
    (rs : List (String × String)) :
    binRecords idx b (r :: rs) =
      if owns idx b r then r :: binRecords idx b rs else binRecords idx b rs := by
  simp [binRecords, List.filter_cons]

theorem binContent_cons (idx : ContigIndex) (b : String) (r : String × String)
    (rs : List (String × String)) :
    binContent idx b (r :: rs) =
      (if owns idx b r then renderRec r else "") ++ binContent idx b rs := by
  unfold binContent
  rw [binRecords_cons]
  by_cases h : owns idx b r <;> simp [h, concatAll]

theorem binContent_of_none (idx : ContigIndex) (b : String)
    (rs : List (String × String)) (h : rs.any (owns idx b) = false) :
    binContent idx b rs = "" := by
  have : binRecords idx b rs = [] := by
    unfold binRecords
    rw [List.filter_eq_nil_iff]
    intro r hr
    simp only [List.any_eq_false] at h
    exact h r hr
  simp [binContent, this, concatAll]

/-- Folding flushes over a record list: the bin's content grows by exactly
the renders of the records it owns, in order. -/
theorem lookupStr_foldl_applyRecord (idx : ContigIndex) (x : String) :
    ∀ (rs : List (String × String)), (∀ r ∈ rs, (binsOf idx r.1).Nodup) →
      ∀ ws : Writers,
        lookupStr x (rs.foldl (applyRecord idx) ws) =
          if rs.any (owns idx x) then
            some ((lookupStr x ws).getD "" ++ binContent idx x rs)
          else lookupStr x ws := by
  intro rs
  induction rs with
  | nil =>
    intro _ ws
    simp [binContent, binRecords, concatAll]
  | cons r rs ih =>
    intro hnd ws
    have hndr : (binsOf idx r.1).Nodup := hnd r (List.mem_cons_self r rs)
    have hnd' : ∀ r' ∈ rs, (binsOf idx r'.1).Nodup :=
      fun r' hr' => hnd r' (List.mem_cons_of_mem r hr')
    simp only [List.foldl_cons]
    rw [ih hnd' (applyRecord idx ws r), lookupStr_applyRecord idx ws r x hndr]
    by_cases ho : owns idx x r
    · cases hany : rs.any (owns idx x) with
      | true =>
        simp [ho, hany, binContent_cons, String.append_assoc]
      | false =>
        have hbc : binContent idx x rs = "" := binContent_of_none idx x rs hany
        simp [ho, hany, binContent_cons, hbc]
    · cases hany : rs.any (owns idx x) with
      | true => simp [ho, hany, binContent_cons]
      | false => simp [ho, hany]

/-- The content of bin x after replaying the records rs from an empty
registry: its matching records rendered in order, or no file at all. -/
theorem lookupStr_outputs (idx : ContigIndex) (x : String)
    (rs : List (String × String)) (hnd : ∀ r ∈ rs, (binsOf idx r.1).Nodup) :
    lookupStr x (outputs idx rs) =
      if rs.any (owns idx x) then some (binContent idx x rs) else none := by
  unfold outputs
  rw [lookupStr_foldl_applyRecord idx x rs hnd []]
  cases hany : rs.any (owns idx x) <;> simp [lookupStr]

/-! ### The splitter refines parse-then-replay -/

theorem flushState_outputs (idx : ContigIndex) (ps : ParseState) :
    flushState idx ⟨outputs idx ps.recs, ps.current, ps.buffer⟩ =
      outputs idx (pflush ps) := by
  obtain ⟨recs, cur, buf⟩ := ps
  cases cur with
  | none => rfl
  | some id =>
    simp [flushState, pflush, outputs, List.foldl_append]

theorem runLines_prun (idx : ContigIndex) :
    ∀ (ls : List String) (recs : List (String × String)) (cur : Option String)
      (buf : List String),
      runLines idx ⟨outputs idx recs, cur, buf⟩ ls =
        (prun ⟨recs, cur, buf⟩ ls).map
          (fun ps' => ⟨outputs idx ps'.recs, ps'.current, ps'.buffer⟩) := by
  intro ls
  induction ls with
  | nil => intro recs cur buf; rfl
  | cons l ls ih =>
    intro recs cur buf
    simp only [runLines, prun, stepLine, pstep]
    by_cases hm : isMarker l
    · cases ht : headerToken l with
      | none => simp [hm, ht]
      | some id =>
        have hflush := flushState_outputs idx ⟨recs, cur, buf⟩
        simp only [hm, ht, if_true, ite_true]
        rw [hflush]
        have := ih (pflush ⟨recs, cur, buf⟩) (some id) []
        simpa using this
    · simp only [hm, ite_false, if_neg]
      have := ih recs cur (buf ++ [l])
      simpa using this

/-- split_fasta_by_bin equals parsing the records and replaying them through
the flush, record by record. -/
theorem split_eq_outputs_records (m : BinMap) (lines : List String) :
    split_fasta_by_bin m lines =
      (records lines).map (outputs (invertMap m)) := by
  simp only [split_fasta_by_bin, records]
  have h := runLines_prun (invertMap m) lines [] none []
  have h0 : outputs (invertMap m) ([] : List (String × String)) = [] := rfl
  rw [h0] at h
  rw [h]
  cases hp : prun ⟨[], none, []⟩ lines with
  | none => rfl
  | some ps' =>
    simp [flushState_outputs]

/-! ### Characterising the inverted index -/

theorem binsOf_addBinFor (idx : ContigIndex) (c b x : String) :
    binsOf (addBinFor idx c b) x =
      if c = x then binsOf idx x ++ [b] else binsOf idx x := by
  induction idx with
  | nil =>
    by_cases h : c = x <;> simp [addBinFor, binsOf, lookupStr, h]
  | cons p rest ih =>
    obtain ⟨c', bs⟩ := p
    by_cases h1 : c' = c
    · by_cases h2 : c = x
      · simp [addBinFor, h1, binsOf, lookupStr, h1.trans h2, h2]
      · have hcx : ¬c' = x := fun hh => h2 (h1.symm.trans hh)
        simp [addBinFor, h1, binsOf, lookupStr, hcx, h2]
    · by_cases h2 : c' = x
      · have hcx : ¬c = x := fun hh => h1 (h2.trans hh.symm)
        have hxc : ¬x = c := fun hh => hcx hh.symm
        simp [addBinFor, h1, binsOf, lookupStr, h2, hcx, hxc]
      · simp only [addBinFor, if_neg h1]
        have := ih
        by_cases h3 : c = x <;>
          simp [binsOf, lookupStr, h2, h3] <;>
          simpa [binsOf, h3] using this

/-- Appending one bin's contig set to the index: contig x gains the bin
exactly when it is one of the bin's contigs (duplicate-free set). -/
theorem binsOf_foldContigs (b : String) :
    ∀ (cs : List String), cs.Nodup → ∀ (idx : ContigIndex) (x : String),
      binsOf (cs.foldl (fun idx' c => addBinFor idx' c b) idx) x =
        binsOf idx x ++ (if x ∈ cs then [b] else []) := by
  intro cs
  induction cs with
  | nil => intro _ idx x; simp
  | cons c cs ih =>
    intro hnd idx x
    have hnd' : cs.Nodup := (List.nodup_cons.mp hnd).2
    simp only [List.foldl_cons]
    rw [ih hnd' (addBinFor idx c b) x, binsOf_addBinFor]
    by_cases h : c = x
    · have hx : x ∉ cs := h ▸ (List.nodup_cons.mp hnd).1
      simp [h, hx]
    · have hne : x ∈ c :: cs ↔ x ∈ cs := by
        simp [List.mem_cons]
        intro hh
        exact absurd hh.symm h
      by_cases h2 : x ∈ cs <;> simp [h, h2, hne]

/-- The inverted index, as a function: contig x is owned by exactly the
bins whose contig set contains it, in mapping order. -/
theorem binsOf_invertMap (m : BinMap) (hwf : MapWF m) (x : String) :
    binsOf (invertMap m) x =
      (m.filter (fun p => hasStr p.2 x)).map Prod.fst := by
  obtain ⟨-, hval⟩ := hwf
  suffices h : ∀ (mm : BinMap), (∀ p ∈ mm, p.2.Nodup) → ∀ idx : ContigIndex,
      binsOf (mm.foldl (fun idx p => p.2.foldl (fun idx' c => addBinFor idx' c p.1) idx) idx) x =
        binsOf idx x ++ (mm.filter (fun p => hasStr p.2 x)).map Prod.fst by
    have := h m hval []
    simpa [invertMap, binsOf, lookupStr] using this
  intro mm
  induction mm with
  | nil => intro _ idx; simp
  | cons p mm ih =>
    intro hval' idx
    have hp : p.2.Nodup := hval' p (List.mem_cons_self p mm)
    have hval'' : ∀ q ∈ mm, q.2.Nodup := fun q hq => hval' q (List.mem_cons_of_mem p hq)
    simp only [List.foldl_cons]
    rw [ih hval'', binsOf_foldContigs p.1 p.2 hp idx x, List.filter_cons]
    by_cases hmem : x ∈ p.2
    · have : hasStr p.2 x = true := (hasStr_iff p.2 x).mpr hmem
      simp [hmem, this]
    · have : hasStr p.2 x = false := (hasStr_eq_false_iff p.2 x).mpr hmem
      simp [hmem, this]

/-- Each contig's bin list in the inverted index is duplicate-free. -/
theorem binsOf_invertMap_nodup (m : BinMap) (hwf : MapWF m) (x : String) :
    (binsOf (invertMap m) x).Nodup := by
  rw [binsOf_invertMap m hwf x]
  have hsub : List.Sublist ((m.filter (fun p => hasStr p.2 x)).map Prod.fst)
      (m.map Prod.fst) :=
    (List.filter_sublist m).map Prod.fst
  exact hwf.1.sublist hsub

/-! ### The loaded mapping is well-formed -/

theorem addContig_keys (m : BinMap) (b c : String) :
    (addContig m b c).map Prod.fst =
      if b ∈ m.map Prod.fst then m.map Prod.fst else m.map Prod.fst ++ [b] := by
  induction m with
  | nil => simp [addContig]
  | cons p rest ih =>
    obtain ⟨b', cs⟩ := p
    by_cases h : b' = b
    · simp [addContig, h]
    · have hne : ¬b = b' := fun hh => h hh.symm
      by_cases h2 : b ∈ rest.map Prod.fst <;>
        simp [addContig, h, hne, h2, ih]

theorem addContig_values_nodup :
    ∀ (m : BinMap) (b c : String), (∀ p ∈ m, p.2.Nodup) →
      ∀ p ∈ addContig m b c, p.2.Nodup := by
  intro m
  induction m with
  | nil =>
    intro b c _ p hp
    simp [addContig] at hp
    simp [hp]
  | cons q rest ih =>
    intro b c hval p hp
    obtain ⟨b', cs⟩ := q
    have hcs : cs.Nodup := hval (b', cs) (List.mem_cons_self _ _)
    by_cases h : b' = b
    · simp only [addContig, if_pos h, List.mem_cons] at hp
      rcases hp with hp | hp
      · subst hp
        by_cases hc : hasStr cs c = true
        · simpa [hc] using hcs
        · have hnotin : c ∉ cs := by
            rw [Bool.not_eq_true] at hc
            exact (hasStr_eq_false_iff cs c).mp hc
          simp only [hc, if_false, ite_false]
          simpa [List.nodup_append] using ⟨hcs, hnotin⟩
      · exact hval p (List.mem_cons_of_mem _ hp)
    · simp only [addContig, if_neg h, List.mem_cons] at hp
      rcases hp with hp | hp
      · subst hp
        exact hcs
      · exact ih b c (fun q hq => hval q (List.mem_cons_of_mem _ hq)) p hp

theorem addContig_wf (m : BinMap) (b c : String) (hwf : MapWF m) :
    MapWF (addContig m b c) := by
  constructor
  · rw [addContig_keys]
    by_cases h : b ∈ m.map Prod.fst
    · simp [h, hwf.1]
    · simp only [h, if_false, ite_false]
      rw [List.nodup_append]
      refine ⟨hwf.1, List.nodup_singleton b, ?_⟩
      intro a ha hb
      rw [List.mem_singleton] at hb
      exact h (hb ▸ ha)
  · exact addContig_values_nodup m b c hwf.2

theorem loadRow_wf (m : BinMap) (line : String) (hwf : MapWF m) :
    MapWF (loadRow m line) := by
  unfold loadRow
  by_cases h : pyStrip line = ""
  · simpa [h] using hwf
  · simp only [h, if_false, ite_false]
    cases hp : pySplit (pyStrip line) with
    | nil => exact hwf
    | cons b rest =>
      cases rest with
      | nil => exact hwf
      | cons c _ => exact addContig_wf m b c hwf

theorem foldl_loadRow_wf :
    ∀ (ls : List String) (m : BinMap), MapWF m → MapWF (ls.foldl loadRow m) := by
  intro ls
  induction ls with
  | nil => intro m h; exact h
  | cons l ls ih => intro m h; exact ih _ (loadRow_wf m l h)

/-- The loaded mapping always has distinct bin keys and duplicate-free
contig sets. -/
theorem load_bin_contig_map_wf (lines : List String) :
    MapWF (load_bin_contig_map lines) := by
  cases lines with
  | nil => exact ⟨List.nodup_nil, by simp [load_bin_contig_map]⟩
  | cons h rest => exact foldl_loadRow_wf rest [] ⟨List.nodup_nil, by simp⟩

/-! ### Run-prefix lemmas -/

theorem runLines_append (idx : ContigIndex) :
    ∀ (l₁ l₂ : List String) (st : SplitState),
      runLines idx st (l₁ ++ l₂) =
        (runLines idx st l₁).bind (fun st' => runLines idx st' l₂) := by
  intro l₁
  induction l₁ with
  | nil => intro l₂ st; rfl
  | cons l ls ih =>
    intro l₂ st
    simp only [List.cons_append, runLines]
    cases stepLine idx st l with
    | none => rfl
    | some st' => exact ih l₂ st'

/-- Lines carrying no record marker are only ever buffered: the writers and
the absent current id are untouched. -/
theorem runLines_no_marker (idx : ContigIndex) :
    ∀ (ls : List String), (∀ l ∈ ls, isMarker l = false) →
      ∀ (ws : Writers) (buf : List String),
        runLines idx ⟨ws, none, buf⟩ ls = some ⟨ws, none, buf ++ ls⟩ := by
  intro ls
  induction ls with
  | nil => intro _ ws buf; simp [runLines]
  | cons l ls ih =>
    intro h ws buf
    have hl : isMarker l = false := h l (List.mem_cons_self _ _)
    have h' : ∀ l' ∈ ls, isMarker l' = false :=
      fun l' hl' => h l' (List.mem_cons_of_mem _ hl')
    simp only [runLines, stepLine, hl, Bool.false_eq_true, ite_false]
    rw [ih h' ws (buf ++ [l])]
    simp

/-- While no record has started, the content of the body buffer cannot
influence the final output. -/
theorem runOut_buffer_irrel (idx : ContigIndex) :
    ∀ (ls : List String) (ws : Writers) (buf buf' : List String),
      (runLines idx ⟨ws, none, buf⟩ ls).map (flushState idx) =
        (runLines idx ⟨ws, none, buf'⟩ ls).map (flushState idx) := by
  intro ls
  induction ls with
  | nil => intro ws buf buf'; simp [runLines, flushState]
  | cons l ls ih =>
    intro ws buf buf'
    by_cases hm : isMarker l
    · simp only [runLines, stepLine, hm, ite_true]
      cases ht : headerToken l with
      | none => simp [ht]
      | some id => simp [ht, flushState]
    · simp only [runLines, stepLine, hm, Bool.false_eq_true, ite_false]
      exact ih ws (buf ++ [l]) (buf' ++ [l])

/-! ### Writing output files into a directory -/

theorem lookupStr_append {α : Type} (x : String) :
    ∀ (l₁ l₂ : List (String × α)),
      lookupStr x (l₁ ++ l₂) = firstSome (lookupStr x l₁) (lookupStr x l₂) := by
  intro l₁
  induction l₁ with
  | nil => intro l₂; rfl
  | cons p rest ih =>
    intro l₂
    by_cases h : p.1 = x <;> simp [lookupStr, h, ih, firstSome]

theorem lookupStr_setFile (dir : Writers) (b x content : String) :
    lookupStr x (setFile dir b content) =
      if b = x then some content else lookupStr x dir := by
  induction dir with
  | nil => by_cases h : b = x <;> simp [setFile, lookupStr, h]
  | cons p rest ih =>
    obtain ⟨b', t⟩ := p
    by_cases h1 : b' = b
    · by_cases h2 : b = x
      · simp [setFile, h1, lookupStr, h1.trans h2, h2]
      · have h3 : ¬b' = x := fun hh => h2 (h1.symm.trans hh)
        simp [setFile, h1, lookupStr, h3, h2]
    · by_cases h2 : b' = x
      · have hbx : ¬b = x := fun hh => h1 (h2.trans hh.symm)
        have hxb : ¬x = b := fun hh => hbx hh.symm
        simp [setFile, h1, lookupStr, h2, hbx, hxb]
      · simp [setFile, h1, lookupStr, h2, ih]

/-- Writing a run's files into a directory: a file of the run takes its
last written content, any other file keeps its prior content. -/
theorem lookupStr_applyRun :
    ∀ (out dir : Writers) (x : String),
      lookupStr x (applyRun dir out) =
        firstSome (lookupStr x out.reverse) (lookupStr x dir) := by
  intro out
  induction out with
  | nil => intro dir x; rfl
  | cons p rest ih =>
    intro dir x
    simp only [applyRun, List.foldl_cons, List.reverse_cons]
    have h1 : applyRun (setFile dir p.1 p.2) rest =
        rest.foldl (fun d q => setFile d q.1 q.2) (setFile dir p.1 p.2) := rfl
    rw [← h1, ih (setFile dir p.1 p.2) x, lookupStr_append, lookupStr_setFile]
    cases lookupStr x rest.reverse with
    | some c => simp [firstSome]
    | none =>
      by_cases h : p.1 = x <;> simp [firstSome, lookupStr, h]

/-! ### Splitting a concatenation around a member -/

theorem concatAll_mem_split :
    ∀ (l : List String) (a : String), a ∈ l →
      ∃ s t, concatAll l = s ++ a ++ t := by
  intro l
  induction l with
  | nil => intro a h; exact absurd h (List.not_mem_nil a)
  | cons b l ih =>
    intro a h
    rcases List.mem_cons.mp h with hba | h'
    · subst hba
      exact ⟨"", concatAll l, by simp [concatAll]⟩
    · obtain ⟨s, t, hst⟩ := ih a h'
      exact ⟨b ++ s, t, by simp [concatAll, hst, String.append_assoc]⟩

/-! ### Small helper facts used by the claim theorems -/

theorem hasStr_append_self (cs : List String) (c : String) :
    hasStr (cs ++ [c]) c = true :=
  (hasStr_iff (cs ++ [c]) c).mpr (List.mem_append_right cs (List.mem_singleton.mpr rfl))

/-- Re-adding an existing (bin, contig) row leaves the mapping unchanged:
set semantics collapse duplicate rows. -/
theorem addContig_idem :
    ∀ (m : BinMap) (b c : String), addContig (addContig m b c) b c = addContig m b c := by
  intro m
  induction m with
  | nil => intro b c; simp [addContig, hasStr]
  | cons p rest ih =>
    intro b c
    obtain ⟨b', cs⟩ := p
    by_cases h : b' = b
    · by_cases hc : hasStr cs c = true
      · simp [addContig, h, hc]
      · simp only [Bool.not_eq_true] at hc
        simp [addContig, h, hc, hasStr_append_self]
    · simp [addContig, h, ih]

theorem pySplit_empty : pySplit "" = [] := rfl

/-! ### Claim theorems -/

/-- Claim C2: with mapping lines bin/contig header, A c1, A c2, B c2 and a
sequence file holding records c1, c2, c3 in order, the run succeeds and
produces exactly the two files A.fasta (records c1 and c2) and B.fasta
(record c2); c3 is written nowhere and no C.fasta exists. -/
theorem claim_C2 :
    ∃ out : Writers,
      main_run true true ["bin\tcontig", "A\tc1", "A\tc2", "B\tc2"]
          [">c1\n", "AAAA\n", ">c2\n", "CCCC\n", ">c3\n", "GGGG\n"] =
        RunOutcome.completed out ∧
      out.map Prod.fst = ["A", "B"] ∧
      lookupStr "A" out = some ">c1\nAAAA\n>c2\nCCCC\n" ∧
      lookupStr "B" out = some ">c2\nCCCC\n" ∧
      lookupStr "C" out = none := by
  refine ⟨[("A", ">c1\nAAAA\n>c2\nCCCC\n"), ("B", ">c2\nCCCC\n")], ?_, ?_, ?_, ?_, ?_⟩ <;>
    decide

/-- Claim C4: a sequence file whose record-marker line carries no token
after the marker makes the per-line parse index into an empty token list:
the token extraction yields nothing and the run ends in an uncaught
exception, not in tolerated malformed input. -/
theorem claim_C4 :
    headerToken ">\n" = none ∧
    headerToken "> \n" = none ∧
    split_fasta_by_bin (load_bin_contig_map ["bin\tcontig", "A\tc1"])
        [">\n", "AAAA\n"] = none ∧
    main_run true true ["bin\tcontig", "A\tc1"] ["> \n", "AAAA\n"] =
      RunOutcome.crashed := by
  refine ⟨?_, ?_, ?_, ?_⟩ <;> decide

/-- Claim C5: the run terminates early with a message exactly when the
assembly path is missing, the map path is missing, or the loaded mapping is
empty; otherwise it proceeds into the splitter (completing, or crashing on
malformed markers). -/
theorem claim_C5 (assemblyExists mapExists : Bool) (mapLines fastaLines : List String) :
    ((∃ msg, main_run assemblyExists mapExists mapLines fastaLines =
        RunOutcome.earlyExit msg) ↔
      (assemblyExists = false ∨ mapExists = false ∨
        load_bin_contig_map mapLines = [])) ∧
    (assemblyExists = true → mapExists = true →
      load_bin_contig_map mapLines ≠ [] →
      (∃ out, main_run assemblyExists mapExists mapLines fastaLines =
          RunOutcome.completed out) ∨
        main_run assemblyExists mapExists mapLines fastaLines = RunOutcome.crashed) := by
  constructor
  · constructor
    · rintro ⟨msg, hmsg⟩
      by_cases ha : assemblyExists = false
      · exact Or.inl ha
      by_cases he : mapExists = false
      · exact Or.inr (Or.inl he)
      by_cases hm : load_bin_contig_map mapLines = []
      · exact Or.inr (Or.inr hm)
      exfalso
      rw [Bool.not_eq_false] at ha he
      simp only [main_run, ha, he, hm, Bool.true_eq_false, ite_false, if_neg] at hmsg
      cases hsp : split_fasta_by_bin (load_bin_contig_map mapLines) fastaLines with
      | none => rw [hsp] at hmsg; exact RunOutcome.noConfusion hmsg
      | some out => rw [hsp] at hmsg; exact RunOutcome.noConfusion hmsg
    · rintro (h | h | h)
      · exact ⟨"ERROR: Assembly not found", by simp [main_run, h]⟩
      · refine ⟨?_, ?_⟩
        · exact if assemblyExists = false then "ERROR: Assembly not found"
            else "ERROR: Mapping file not found"
        · by_cases ha : assemblyExists = false <;> simp [main_run, ha, h]
      · by_cases ha : assemblyExists = false
        · exact ⟨"ERROR: Assembly not found", by simp [main_run, ha]⟩
        by_cases he : mapExists = false
        · exact ⟨"ERROR: Mapping file not found", by simp [main_run, ha, he]⟩
        exact ⟨"ERROR: No bin–contig mappings found", by simp [main_run, ha, he, h]⟩
  · intro ha he hm
    simp only [main_run, ha, he, hm, Bool.true_eq_false, ite_false, if_neg]
    cases hsp : split_fasta_by_bin (load_bin_contig_map mapLines) fastaLines with
    | none => right; simp [hsp]
    | some out => left; exact ⟨out, by simp [hsp]⟩

/-- Witness for claim C5 at concrete inputs: with both paths present and a
non-empty mapping the run does not exit early. -/
theorem claim_C5_witness :
    (∃ out, main_run true true ["bin\tcontig", "A\tc1"] [">c1\n", "AAAA\n"] =
        RunOutcome.completed out) ∨
      main_run true true ["bin\tcontig", "A\tc1"] [">c1\n", "AAAA\n"] =
        RunOutcome.crashed :=
  (claim_C5 true true ["bin\tcontig", "A\tc1"] [">c1\n", "AAAA\n"]).2
    rfl rfl (by decide)

/-- Claim C6: the loader drops the first line regardless of content, folds
the remaining lines, silently skips lines splitting into fewer than two
whitespace-separated fields, records the first two fields of any other
line (extras ignored), and collapses duplicate rows by set semantics. -/
theorem claim_C6 :
    (∀ (h₁ h₂ : String) (rest : List String),
      load_bin_contig_map (h₁ :: rest) = load_bin_contig_map (h₂ :: rest)) ∧
    (∀ (h : String) (rest : List String),
      load_bin_contig_map (h :: rest) = rest.foldl loadRow []) ∧
    (∀ (m : BinMap) (line : String),
      (pySplit (pyStrip line)).length < 2 → loadRow m line = m) ∧
    (∀ (m : BinMap) (line b c : String) (extra : List String),
      pySplit (pyStrip line) = b :: c :: extra → loadRow m line = addContig m b c) ∧
    (∀ (m : BinMap) (b c : String),
      addContig (addContig m b c) b c = addContig m b c) := by
  refine ⟨fun h₁ h₂ rest => rfl, fun h rest => rfl, ?_, ?_, addContig_idem⟩
  · intro m line hlen
    unfold loadRow
    by_cases h : pyStrip line = ""
    · simp [h]
    · simp only [h, ite_false, if_neg]
      cases hp : pySplit (pyStrip line) with
      | nil => rfl
      | cons b rest =>
        cases rest with
        | nil => rfl
        | cons c tl =>
          rw [hp] at hlen
          simp at hlen
          omega
  · intro m line b c extra hp
    unfold loadRow
    have h : ¬pyStrip line = "" := by
      intro h0
      rw [h0, pySplit_empty] at hp
      exact List.noConfusion hp
    simp [h, hp]

/-- Witness for claim C6 at concrete inputs: a data-looking header is
dropped, a one-field line is skipped, extra fields are ignored, and a
duplicate row collapses. -/
theorem claim_C6_witness :
    load_bin_contig_map ["anything at all", "A\tc1"] =
        load_bin_contig_map ["B\tc9", "A\tc1"] ∧
    loadRow [("A", ["c1"])] "lonely\n" = [("A", ["c1"])] ∧
    loadRow [] "A\tc1\textra\n" = addContig [] "A" "c1" ∧
    addContig (addContig [] "A" "c1") "A" "c1" = addContig [] "A" "c1" :=
  ⟨claim_C6.1 "anything at all" "B\tc9" ["A\tc1"],
   claim_C6.2.2.1 [("A", ["c1"])] "lonely\n" (by decide),
   claim_C6.2.2.2.1 [] "A\tc1\textra\n" "A" "c1" ["extra"] (by decide),
   claim_C6.2.2.2.2 [] "A" "c1"⟩

/-- Claim C7: the output files are a deterministic function of the inputs,
and writing them into a directory truncates: rerunning into the same
directory leaves every file unchanged, and a written file's final content
is the run's output regardless of what the directory held before. -/
theorem claim_C7 (m : BinMap) (lines : List String) (out : Writers)
    (_h : split_fasta_by_bin m lines = some out) :
    (∀ (dir : Writers) (x : String),
      lookupStr x (applyRun (applyRun dir out) out) =
        lookupStr x (applyRun dir out)) ∧
    (∀ (dir dir' : Writers) (x c : String),
      lookupStr x out.reverse = some c →
      lookupStr x (applyRun dir out) = some c ∧
        lookupStr x (applyRun dir' out) = some c) := by
  constructor
  · intro dir x
    rw [lookupStr_applyRun out (applyRun dir out) x]
    cases h' : lookupStr x out.reverse with
    | none => simp [firstSome]
    | some c =>
      rw [lookupStr_applyRun out dir x, h']
      simp [firstSome]
  · intro dir dir' x c h'
    constructor <;> (rw [lookupStr_applyRun, h']; simp [firstSome])

/-- Witness for claim C7: rerunning the concrete two-bin split into a
stale directory changes nothing, and B.fasta's final bytes are the run's
output whether or not the directory pre-existed. -/
theorem claim_C7_witness :
    lookupStr "A"
        (applyRun
          (applyRun [("A", "stale"), ("Z", "keep")]
            [("A", ">c1\nAAAA\n>c2\nCCCC\n"), ("B", ">c2\nCCCC\n")])
          [("A", ">c1\nAAAA\n>c2\nCCCC\n"), ("B", ">c2\nCCCC\n")]) =
      lookupStr "A"
        (applyRun [("A", "stale"), ("Z", "keep")]
          [("A", ">c1\nAAAA\n>c2\nCCCC\n"), ("B", ">c2\nCCCC\n")]) ∧
    (lookupStr "B"
        (applyRun [("A", "stale"), ("Z", "keep")]
          [("A", ">c1\nAAAA\n>c2\nCCCC\n"), ("B", ">c2\nCCCC\n")]) =
        some ">c2\nCCCC\n" ∧
      lookupStr "B"
        (applyRun []
          [("A", ">c1\nAAAA\n>c2\nCCCC\n"), ("B", ">c2\nCCCC\n")]) =
        some ">c2\nCCCC\n") :=
  ⟨(claim_C7 (load_bin_contig_map ["bin\tcontig", "A\tc1", "A\tc2", "B\tc2"])
      [">c1\n", "AAAA\n", ">c2\n", "CCCC\n", ">c3\n", "GGGG\n"]
      [("A", ">c1\nAAAA\n>c2\nCCCC\n"), ("B", ">c2\nCCCC\n")] (by decide)).1
    [("A", "stale"), ("Z", "keep")] "A",
   (claim_C7 (load_bin_contig_map ["bin\tcontig", "A\tc1", "A\tc2", "B\tc2"])
      [">c1\n", "AAAA\n", ">c2\n", "CCCC\n", ">c3\n", "GGGG\n"]
      [("A", ">c1\nAAAA\n>c2\nCCCC\n"), ("B", ">c2\nCCCC\n")] (by decide)).2
    [("A", "stale"), ("Z", "keep")] [] "B" ">c2\nCCCC\n" (by decide)⟩

/-- Claim C10: lines preceding the first record-marker line are silently
discarded: the split of the file equals the split of the file without
them. -/
theorem claim_C10 (m : BinMap) (pre rest : List String)
    (h : ∀ l ∈ pre, isMarker l = false) :
    split_fasta_by_bin m (pre ++ rest) = split_fasta_by_bin m rest := by
  simp only [split_fasta_by_bin]
  rw [runLines_append (invertMap m) pre rest ⟨[], none, []⟩,
      runLines_no_marker (invertMap m) pre h [] []]
  simp only [Option.some_bind]
  exact runOut_buffer_irrel (invertMap m) rest [] ([] ++ pre) []

/-- Witness for claim C10: two marker-free leading lines do not change the
concrete split. -/
theorem claim_C10_witness :
    split_fasta_by_bin [("A", ["c1"])]
        (["junk\n", "more junk\n"] ++ [">c1\n", "AAAA\n"]) =
      split_fasta_by_bin [("A", ["c1"])] [">c1\n", "AAAA\n"] :=
  claim_C10 [("A", ["c1"])] ["junk\n", "more junk\n"] [">c1\n", "AAAA\n"] (by decide)

/-- Claim C9: an empty sequence file, or one with no record markers, yields
a successful run with zero output files; and a bin that matches no record
never gets a file. -/
theorem claim_C9 :
    (records ([] : List String) = some [] ∧
      ∀ m : BinMap, split_fasta_by_bin m [] = some []) ∧
    (∀ (m : BinMap) (lines : List String), (∀ l ∈ lines, isMarker l = false) →
      split_fasta_by_bin m lines = some []) ∧
    (∀ (mapLines lines : List String) (rs : List (String × String))
      (out : Writers) (b : String),
      records lines = some rs →
      split_fasta_by_bin (load_bin_contig_map mapLines) lines = some out →
      (∀ r ∈ rs, owns (invertMap (load_bin_contig_map mapLines)) b r = false) →
      lookupStr b out = none) := by
  refine ⟨⟨rfl, fun m => rfl⟩, ?_, ?_⟩
  · intro m lines h
    simp only [split_fasta_by_bin]
    rw [runLines_no_marker (invertMap m) lines h [] []]
    rfl
  · intro mapLines lines rs out b hrs hout hnone
    have hsp := split_eq_outputs_records (load_bin_contig_map mapLines) lines
    rw [hout, hrs] at hsp
    simp only [Option.map_some'] at hsp
    have hoeq : out = outputs (invertMap (load_bin_contig_map mapLines)) rs :=
      Option.some.inj hsp
    have hnd : ∀ r ∈ rs,
        (binsOf (invertMap (load_bin_contig_map mapLines)) r.1).Nodup :=
      fun r _ => binsOf_invertMap_nodup _ (load_bin_contig_map_wf mapLines) r.1
    rw [hoeq, lookupStr_outputs _ b rs hnd]
    have hany : rs.any (owns (invertMap (load_bin_contig_map mapLines)) b) = false :=
      List.any_eq_false.mpr (fun r hr => by simp [hnone r hr])
    simp [hany]

/-- Witness for claim C9: a marker-free file produces no output files, and
bin B, whose only contig never occurs, gets none either. -/
theorem claim_C9_witness :
    split_fasta_by_bin [("A", ["c1"])] ["plain line\n", "another\n"] = some [] ∧
    lookupStr "B" [("A", ">c1\nAAAA\n")] = none :=
  ⟨claim_C9.2.1 [("A", ["c1"])] ["plain line\n", "another\n"] (by decide),
   claim_C9.2.2 ["bin\tcontig", "A\tc1", "B\tc9"] [">c1\n", "AAAA\n"]
     [("c1", "AAAA\n")] [("A", ">c1\nAAAA\n")] "B"
     (by decide) (by decide) (by decide)⟩

/-- Claim C3: when a sequence id occurs in several records, occurrences are
processed in file order and each is flushed independently to every owning
bin: the bin file's record list restricted to that id is exactly the list
of the file's occurrences, each with its own body, with no deduplication. -/
theorem claim_C3 (mapLines lines : List String) (rs : List (String × String))
    (out : Writers) (b i : String)
    (hrs : records lines = some rs)
    (hout : split_fasta_by_bin (load_bin_contig_map mapLines) lines = some out)
    (hb : hasStr (binsOf (invertMap (load_bin_contig_map mapLines)) i) b = true) :
    lookupStr b out =
      (if rs.any (owns (invertMap (load_bin_contig_map mapLines)) b) then
        some (binContent (invertMap (load_bin_contig_map mapLines)) b rs)
      else none) ∧
    (binRecords (invertMap (load_bin_contig_map mapLines)) b rs).filter (idIs i) =
      rs.filter (idIs i) := by
  have hwf := load_bin_contig_map_wf mapLines
  have hnd : ∀ r ∈ rs,
      (binsOf (invertMap (load_bin_contig_map mapLines)) r.1).Nodup :=
    fun r _ => binsOf_invertMap_nodup _ hwf r.1
  have hsp := split_eq_outputs_records (load_bin_contig_map mapLines) lines
  rw [hout, hrs] at hsp
  simp only [Option.map_some'] at hsp
  have hoeq : out = outputs (invertMap (load_bin_contig_map mapLines)) rs :=
    Option.some.inj hsp
  constructor
  · rw [hoeq]
    exact lookupStr_outputs _ b rs hnd
  · unfold binRecords
    rw [List.filter_filter]
    apply List.filter_congr
    intro r hr
    cases hi : idIs i r with
    | false => simp
    | true =>
      have hri : r.1 = i := by
        by_cases hx : r.1 = i
        · exact hx
        · simp [idIs, hx] at hi
      simp only [Bool.true_and, Bool.and_true]
      unfold owns
      rw [hri, hb]

/-- Witness for claim C3: a duplicated id dup is written twice, once per
occurrence with that occurrence's own body, into its owning bin A. -/
theorem claim_C3_witness :
    lookupStr "A" [("A", ">dup\nAA\n>dup\nCC\n")] =
      (if [("dup", "AA\n"), ("dup", "CC\n")].any
          (owns (invertMap (load_bin_contig_map ["bin\tcontig", "A\tdup"])) "A") then
        some (binContent (invertMap (load_bin_contig_map ["bin\tcontig", "A\tdup"]))
          "A" [("dup", "AA\n"), ("dup", "CC\n")])
      else none) ∧
    (binRecords (invertMap (load_bin_contig_map ["bin\tcontig", "A\tdup"])) "A"
        [("dup", "AA\n"), ("dup", "CC\n")]).filter (idIs "dup") =
      [("dup", "AA\n"), ("dup", "CC\n")].filter (idIs "dup") :=
  claim_C3 ["bin\tcontig", "A\tdup"] [">dup\n", "AA\n", ">dup\n", "CC\n"]
    [("dup", "AA\n"), ("dup", "CC\n")] [("A", ">dup\nAA\n>dup\nCC\n")] "A" "dup"
    (by decide) (by decide) (by decide)

/-- Claim C8: each bin file holds exactly the records assigned to that bin,
in source order — its content is the concatenated renders of its matching
records — and a record owned by several bins is copied in full into each
owning bin's file. -/
theorem claim_C8 (mapLines lines : List String) (rs : List (String × String))
    (out : Writers) (b : String)
    (hrs : records lines = some rs)
    (hout : split_fasta_by_bin (load_bin_contig_map mapLines) lines = some out) :
    lookupStr b out =
      (if rs.any (owns (invertMap (load_bin_contig_map mapLines)) b) then
        some (binContent (invertMap (load_bin_contig_map mapLines)) b rs)
      else none) ∧
    (∀ r ∈ rs, owns (invertMap (load_bin_contig_map mapLines)) b r = true →
      ∀ content, lookupStr b out = some content →
        ∃ s t, content = s ++ renderRec r ++ t) := by
  have hwf := load_bin_contig_map_wf mapLines
  have hnd : ∀ r ∈ rs,
      (binsOf (invertMap (load_bin_contig_map mapLines)) r.1).Nodup :=
    fun r _ => binsOf_invertMap_nodup _ hwf r.1
  have hsp := split_eq_outputs_records (load_bin_contig_map mapLines) lines
  rw [hout, hrs] at hsp
  simp only [Option.map_some'] at hsp
  have hoeq : out = outputs (invertMap (load_bin_contig_map mapLines)) rs :=
    Option.some.inj hsp
  have hchar : lookupStr b out =
      (if rs.any (owns (invertMap (load_bin_contig_map mapLines)) b) then
        some (binContent (invertMap (load_bin_contig_map mapLines)) b rs)
      else none) := by
    rw [hoeq]
    exact lookupStr_outputs _ b rs hnd
  refine ⟨hchar, ?_⟩
  intro r hr ho content hc
  have hany : rs.any (owns (invertMap (load_bin_contig_map mapLines)) b) = true :=
    List.any_eq_true.mpr ⟨r, hr, ho⟩
  rw [hc, hany, if_pos rfl] at hchar
  have hcontent : content = binContent (invertMap (load_bin_contig_map mapLines)) b rs :=
    Option.some.inj hchar
  have hmem : renderRec r ∈
      (binRecords (invertMap (load_bin_contig_map mapLines)) b rs).map renderRec :=
    List.mem_map_of_mem renderRec (List.mem_filter.mpr ⟨hr, ho⟩)
  obtain ⟨s, t, hst⟩ := concatAll_mem_split _ _ hmem
  exact ⟨s, t, by rw [hcontent]; exact hst⟩

/-- Witness for claim C8: in the concrete two-bin run, record c2 is owned
by bin B and its full render appears inside B.fasta. -/
theorem claim_C8_witness :
    ∃ s t, ">c2\nCCCC\n" = s ++ renderRec ("c2", "CCCC\n") ++ t :=
  (claim_C8 ["bin\tcontig", "A\tc1", "A\tc2", "B\tc2"]
      [">c1\n", "AAAA\n", ">c2\n", "CCCC\n", ">c3\n", "GGGG\n"]
      [("c1", "AAAA\n"), ("c2", "CCCC\n"), ("c3", "GGGG\n")]
      [("A", ">c1\nAAAA\n>c2\nCCCC\n"), ("B", ">c2\nCCCC\n")] "B"
      (by decide) (by decide)).2
    ("c2", "CCCC\n") (by decide) (by decide) ">c2\nCCCC\n" (by decide)

/-- Claim C1, counterexample: bin A owns id c1 and the sequence file does
contain a record with id c1 — yet A.fasta receives two records with that
id, not exactly one, because the file holds two occurrences of c1. -/
theorem claim_C1_counterexample :
    lookupStr "A" (load_bin_contig_map ["bin\tcontig", "A\tc1"]) = some ["c1"] ∧
    hasStr ["c1"] "c1" = true ∧
    records [">c1\n", "AAAA\n", ">c1\n", "CCCC\n"] =
      some [("c1", "AAAA\n"), ("c1", "CCCC\n")] ∧
    split_fasta_by_bin (load_bin_contig_map ["bin\tcontig", "A\tc1"])
        [">c1\n", "AAAA\n", ">c1\n", "CCCC\n"] =
      some [("A", ">c1\nAAAA\n>c1\nCCCC\n")] ∧
    ((binRecords (invertMap (load_bin_contig_map ["bin\tcontig", "A\tc1"])) "A"
        [("c1", "AAAA\n"), ("c1", "CCCC\n")]).filter (idIs "c1")).length = 2 ∧
    ¬((binRecords (invertMap (load_bin_contig_map ["bin\tcontig", "A\tc1"])) "A"
        [("c1", "AAAA\n"), ("c1", "CCCC\n")]).filter (idIs "c1")).length = 1 := by
  refine ⟨?_, ?_, ?_, ?_, ?_, ?_⟩ <;> decide

/-- Claim C1, amended: for every (bin, id) pair of the loaded mapping such
that the sequence file contains exactly one record with that id, the bin's
file holds exactly one record with that id, rendered as the marker line
reconstructed from the id alone followed by the original body verbatim. -/
theorem claim_C1_amended (mapLines lines : List String) (rs : List (String × String))
    (out : Writers) (b i body : String) (cs : List String)
    (hrs : records lines = some rs)
    (hout : split_fasta_by_bin (load_bin_contig_map mapLines) lines = some out)
    (hlb : lookupStr b (load_bin_contig_map mapLines) = some cs)
    (hci : hasStr cs i = true)
    (honce : rs.filter (idIs i) = [(i, body)]) :
    ∃ content,
      lookupStr b out = some content ∧
      content = binContent (invertMap (load_bin_contig_map mapLines)) b rs ∧
      (binRecords (invertMap (load_bin_contig_map mapLines)) b rs).filter (idIs i) =
        [(i, body)] ∧
      ∃ s t, content = s ++ (renderHeader i ++ body) ++ t := by
  have hwf := load_bin_contig_map_wf mapLines
  have hnd : ∀ r ∈ rs,
      (binsOf (invertMap (load_bin_contig_map mapLines)) r.1).Nodup :=
    fun r _ => binsOf_invertMap_nodup _ hwf r.1
  have hsp := split_eq_outputs_records (load_bin_contig_map mapLines) lines
  rw [hout, hrs] at hsp
  simp only [Option.map_some'] at hsp
  have hoeq : out = outputs (invertMap (load_bin_contig_map mapLines)) rs :=
    Option.some.inj hsp
  -- bin b owns id i
  have hmemm : (b, cs) ∈ load_bin_contig_map mapLines := lookupStr_mem hlb
  have hb : hasStr (binsOf (invertMap (load_bin_contig_map mapLines)) i) b = true := by
    rw [binsOf_invertMap _ hwf i]
    apply (hasStr_iff _ b).mpr
    exact List.mem_map.mpr ⟨(b, cs), List.mem_filter.mpr ⟨hmemm, hci⟩, rfl⟩
  -- the unique occurrence is a record of the file
  have hmemrs : (i, body) ∈ rs := by
    have : (i, body) ∈ rs.filter (idIs i) := by
      rw [honce]; exact List.mem_singleton.mpr rfl
    exact List.mem_of_mem_filter this
  have howns : owns (invertMap (load_bin_contig_map mapLines)) b (i, body) = true := by
    unfold owns
    exact hb
  have hany : rs.any (owns (invertMap (load_bin_contig_map mapLines)) b) = true :=
    List.any_eq_true.mpr ⟨(i, body), hmemrs, howns⟩
  refine ⟨binContent (invertMap (load_bin_contig_map mapLines)) b rs, ?_, rfl, ?_, ?_⟩
  · rw [hoeq, lookupStr_outputs _ b rs hnd, hany, if_pos rfl]
  · unfold binRecords
    rw [List.filter_filter, ← honce]
    apply List.filter_congr
    intro r hr
    cases hi : idIs i r with
    | false => simp
    | true =>
      have hri : r.1 = i := by
        by_cases hx : r.1 = i
        · exact hx
        · simp [idIs, hx] at hi
      simp only [Bool.true_and, Bool.and_true]
      unfold owns
      rw [hri, hb]
  · have hmem : renderRec (i, body) ∈
        (binRecords (invertMap (load_bin_contig_map mapLines)) b rs).map renderRec :=
      List.mem_map_of_mem renderRec (List.mem_filter.mpr ⟨hmemrs, howns⟩)
    obtain ⟨s, t, hst⟩ := concatAll_mem_split _ _ hmem
    exact ⟨s, t, hst⟩

/-- Witness for the amended claim C1: a header line with a trailing
annotation is reconstructed from the id alone, and the two-line body is
copied verbatim into A.fasta. -/
theorem claim_C1_amended_witness :
    ∃ content,
      lookupStr "A" [("A", ">c1\nAAAA\nTTTT\n")] = some content ∧
      content = binContent (invertMap (load_bin_contig_map ["bin\tcontig", "A\tc1"]))
        "A" [("c1", "AAAA\nTTTT\n")] ∧
      (binRecords (invertMap (load_bin_contig_map ["bin\tcontig", "A\tc1"])) "A"
          [("c1", "AAAA\nTTTT\n")]).filter (idIs "c1") = [("c1", "AAAA\nTTTT\n")] ∧
      ∃ s t, content = s ++ (renderHeader "c1" ++ "AAAA\nTTTT\n") ++ t :=
  claim_C1_amended ["bin\tcontig", "A\tc1"]
    [">c1 length=8 annotation\n", "AAAA\n", "TTTT\n"]
    [("c1", "AAAA\nTTTT\n")] [("A", ">c1\nAAAA\nTTTT\n")] "A" "c1" "AAAA\nTTTT\n"
    ["c1"] (by decide) (by decide) (by decide) (by decide) (by decide)
